import Mathlib

/-!
Shallow embedding of `src/packages/core/fix_error_codes.py`.

The script reads a file, finds all matches of the Python regex
`(\s+\w+\s*=\s*)(\d+),` with `re.finditer`, then walks the match list in
order keeping a dict `seen_codes` and a counter `next_code = 2135`:

* `code = int(match.group(2))`;
* if `code >= 2134`:
  * if `code in seen_codes`: splice
    `content = content[:match.start(2)] + str(next_code) + content[match.end(2):]`
    (offsets taken from the match against the ORIGINAL content, applied to
    the current, possibly already rewritten, content) and `next_code += 1`;
  * else `seen_codes[code] = True` and, if `code >= next_code`,
    `next_code = code + 1`;
* otherwise the match is ignored entirely.

Text is modelled as `List Char`; Python slices `s[:a]`, `s[b:]`, `s[a:b]`
clamp out-of-range indices exactly as `List.take` / `List.drop` do.

The regex engine: for this particular pattern, backtracking is vacuous.
The character classes `\s`, `\w` are disjoint, `'='` and `','` belong to
neither, and `\d ⊆ \w`; each greedy quantifier is followed by a token that
cannot occur inside the quantified class, so shrinking a greedy run can
never turn a failure into a success.  Hence `re.finditer` is equivalent to
the deterministic maximal-run scanner `tryMatchAt` below, attempted at
positions 0,1,2,… with the scan resuming right after the end of each
(non-empty) match, which is what `finditerAux` implements.
-/

namespace FixErrorCodes

/-- Python `\s` (the ASCII part: space, tab, newline, carriage return,
form feed, vertical tab). -/
def isSpaceChar (c : Char) : Bool :=
  c = ' ' || c = '\t' || c = '\n' || c = '\x0d' || c = '\x0b' || c = '\x0c'

/-- Python `\w` (the ASCII part: letters, digits, underscore). -/
def isWordChar (c : Char) : Bool :=
  c.isAlpha || c.isDigit || c = '_'

/-- Length of the maximal prefix run of characters satisfying `p`
(what a greedy `p*` / `p+` consumes). -/
def runLen (p : Char → Bool) (cs : List Char) : ℕ :=
  (cs.takeWhile p).length

/-- A regex match: start of the whole match and the span `[s2, e2)` of
capture group 2 (the digits), all offsets absolute in the original text. -/
structure Match where
  mstart : ℕ
  s2 : ℕ
  e2 : ℕ
deriving DecidableEq, Repr

/-- Attempt the pattern `(\s+\w+\s*=\s*)(\d+),` at position 0 of `cs`.
On success returns the relative offsets `(s2, e2)` of group 2; the whole
match ends at `e2 + 1` (the comma).  Greedy maximal-run semantics, which
for this pattern coincides with Python's backtracking engine (see header
comment): consume the maximal whitespace run (must be non-empty), the
maximal word run (non-empty), optional whitespace, a literal `'='`,
optional whitespace, the maximal digit run (non-empty), a literal comma. -/
def tryMatchAt (cs : List Char) : Option (ℕ × ℕ) :=
  let a := runLen isSpaceChar cs
  if a = 0 then none else
  let b := runLen isWordChar (cs.drop a)
  if b = 0 then none else
  let c := runLen isSpaceChar (cs.drop (a + b))
  if (cs.drop (a + b + c)).head? = some '=' then
    let rest := (cs.drop (a + b + c)).tail
    let d := runLen isSpaceChar rest
    let e := runLen Char.isDigit (rest.drop d)
    if e = 0 then none else
    if (rest.drop (d + e)).head? = some ',' then
      some (a + b + c + 1 + d, a + b + c + 1 + d + e)
    else none
  else none

/-- One step of `re.finditer`'s scan: try to match at the current
position; on success emit the match and resume after it, on failure
advance one character.  `off` is the absolute offset of `cs` in the
original text; `fuel` bounds the recursion (any `fuel ≥ cs.length`
gives the full scan, since each step consumes at least one character). -/
def finditerAux : ℕ → List Char → ℕ → List Match
  | 0, _, _ => []
  | fuel + 1, cs, off =>
    match tryMatchAt cs with
    | some (s2, e2) =>
        ⟨off, off + s2, off + e2⟩ :: finditerAux fuel (cs.drop (e2 + 1)) (off + e2 + 1)
    | none =>
        match cs with
        | [] => []
        | _ :: rest => finditerAux fuel rest (off + 1)

/-- `list(re.finditer(pattern, content))`: all matches, left to right,
non-overlapping. -/
def findMatches (cs : List Char) : List Match :=
  finditerAux cs.length cs 0

/-- Decimal value of a digit string (`int(...)` on the matched group). -/
def parseDec (cs : List Char) : ℕ :=
  cs.foldl (fun n c => 10 * n + (c.toNat - 48)) 0

/-- The Python slice `content[a:b]` (with clamping). -/
def slice (cs : List Char) (a b : ℕ) : List Char :=
  (cs.drop a).take (b - a)

/-- `match.group(2)`: the digits of a match, read from the ORIGINAL text. -/
def group2 (orig : List Char) (m : Match) : List Char :=
  slice orig m.s2 m.e2

/-- The whole matched substring `match.group(0)`, read from the original
text (the match ends one character after the digits, at the comma). -/
def matchedText (orig : List Char) (m : Match) : List Char :=
  slice orig m.mstart (m.e2 + 1)

/-- `str(n)` as a character list. -/
def natStr (n : ℕ) : List Char :=
  (Nat.repr n).data

/-- The threshold literal `2134` from `if code >= 2134`. -/
def threshold : ℕ := 2134

/-- The initial counter literal `next_code = 2135`. -/
def startCode : ℕ := 2135

/-- The loop state.  `text` is the current `content`, `seen` the keys of
`seen_codes`, `next` the counter `next_code`.  The last two fields are
ghost observers that do not influence the run: `reps` records each value
`next_code` spliced in for a duplicate (in order), and `resolved` records,
for every qualifying match in order, the value it ends the loop iteration
with (the original code for a first occurrence, the assigned replacement
for a duplicate). -/
structure St where
  text : List Char
  seen : List ℕ
  next : ℕ
  reps : List ℕ
  resolved : List ℕ
deriving DecidableEq, Repr

/-- The body of `for match in matches:` from the script, acting on one
match.  `orig` is the original content the matches were computed against
(Python match objects keep offsets and groups of the string they were
matched on, even after the `content` variable is reassigned). -/
def step (orig : List Char) (st : St) (m : Match) : St :=
  let code := parseDec (group2 orig m)
  if threshold ≤ code then
    if code ∈ st.seen then
      { text := st.text.take m.s2 ++ natStr st.next ++ st.text.drop m.e2
        seen := st.seen
        next := st.next + 1
        reps := st.reps ++ [st.next]
        resolved := st.resolved ++ [st.next] }
    else
      { text := st.text
        seen := code :: st.seen
        next := if st.next ≤ code then code + 1 else st.next
        reps := st.reps
        resolved := st.resolved ++ [code] }
  else
    st

/-- The state before the loop: `content` as read, `seen_codes = {}`,
`next_code = 2135`. -/
def initSt (cs : List Char) : St :=
  ⟨cs, [], startCode, [], []⟩

/-- The state after processing the first `k` matches. -/
def runP (cs : List Char) (k : ℕ) : St :=
  ((findMatches cs).take k).foldl (step cs) (initSt cs)

/-- The whole run of the script on content `cs`: the final `content`
(written back to the file) is `(run cs).text` and the printed
`next_code` is `(run cs).next`. -/
def run (cs : List Char) : St :=
  (findMatches cs).foldl (step cs) (initSt cs)

/-- The integer value `int(match.group(2))` of a match, read from the
original text. -/
def valueOf (cs : List Char) (m : Match) : ℕ :=
  parseDec (group2 cs m)

/-- The integer values of all matches, in match order. -/
def matchValues (cs : List Char) : List ℕ :=
  (findMatches cs).map (valueOf cs)

/-- The values of the qualifying matches (those at or above the
threshold), in match order. -/
def qualValues (cs : List Char) : List ℕ :=
  (matchValues cs).filter (fun v => threshold ≤ v)

/-- Example input: a forward collision.  The duplicate `B` is renumbered
to 2135, which then collides with the not-yet-seen `C = 2135`. -/
def exForward : List Char := " A = 2134,\n B = 2134,\n C = 2135,\n".toList

/-- Example input: two unindented assignment lines (the first one starts
at offset 0, with no whitespace before the identifier). -/
def exTwo : List Char := "A = 2134,\nB = 2134,\n".toList

/-- Example input: the same two assignments, each preceded by a space. -/
def exTwoIndented : List Char := " A = 2134,\n B = 2134,\n".toList

/-- Example input whose qualifying codes are already pairwise distinct. -/
def exNodup : List Char := " A = 2134,\n B = 2140,\n".toList

/-- Example input producing no matches at all. -/
def exNoMatch : List Char := "no matches here".toList

/-- Example input on which stale splice offsets corrupt the text: the
first splice writes a 9-digit replacement over a 4-digit span, so every
later match offset is stale by 5, and each later splice cuts 5 characters
too early — the third one cuts into the below-threshold assignment
`x = 5`. -/
def exCorrupt : List Char :=
  " A = 99999999, B = 2134, C = 2134, E = 2134, x = 5, D = 2134,".toList

/-- Invariants maintained by the loop: the counter is strictly above
every seen code and every assigned replacement, replacements are
assigned in strictly increasing order, and every resolved value is
either a seen code or an assigned replacement. -/
def Inv (st : St) : Prop :=
  (∀ v ∈ st.seen, v < st.next) ∧
  (∀ r ∈ st.reps, r < st.next) ∧
  st.reps.Pairwise (· < ·) ∧
  (∀ x ∈ st.resolved, x ∈ st.seen ∨ x ∈ st.reps)

/-- Absence of the forward-collision gap of the single forward pass: no
qualifying first occurrence has a value that was already handed out as a
replacement earlier in the pass. -/
def NoFwdCollision (cs : List Char) : Prop :=
  ∀ k, ∀ h : k < (findMatches cs).length,
    threshold ≤ valueOf cs ((findMatches cs).get ⟨k, h⟩) →
    valueOf cs ((findMatches cs).get ⟨k, h⟩) ∉ (runP cs k).seen →
    valueOf cs ((findMatches cs).get ⟨k, h⟩) ∉ (runP cs k).reps

instance (cs : List Char) : Decidable (NoFwdCollision cs) := by
  unfold NoFwdCollision
  exact Nat.decidableBallLT _ _

/-- Decomposition exhibited by every match: starting at offset `p` the
text reads as one or more whitespace characters, one or more word
characters, optional whitespace, `'='`, optional whitespace, one or more
digits (spanning `[s2, e2)`), and a comma. -/
def ShapeAt (cs : List Char) (p s2 e2 : ℕ) : Prop :=
  ∃ pre ws idt ws2 ws3 ds post,
    cs = pre ++ ws ++ idt ++ ws2 ++ '=' :: (ws3 ++ ds ++ ',' :: post) ∧
    pre.length = p ∧
    ws ≠ [] ∧ (∀ c ∈ ws, isSpaceChar c) ∧
    idt ≠ [] ∧ (∀ c ∈ idt, isWordChar c) ∧
    (∀ c ∈ ws2, isSpaceChar c) ∧ (∀ c ∈ ws3, isSpaceChar c) ∧
    ds ≠ [] ∧ (∀ c ∈ ds, Char.isDigit c) ∧
    s2 = p + (ws.length + idt.length + ws2.length + 1 + ws3.length) ∧
    e2 = s2 + ds.length

/-! ### Case equations for one loop iteration -/

lemma step_below {orig : List Char} {st : St} {m : Match}
    (h : parseDec (group2 orig m) < threshold) : step orig st m = st := by
  simp only [step]
  rw [if_neg (by omega)]

lemma step_dup {orig : List Char} {st : St} {m : Match}
    (hq : threshold ≤ parseDec (group2 orig m))
    (hd : parseDec (group2 orig m) ∈ st.seen) :
    step orig st m =
      { text := st.text.take m.s2 ++ natStr st.next ++ st.text.drop m.e2
        seen := st.seen
        next := st.next + 1
        reps := st.reps ++ [st.next]
        resolved := st.resolved ++ [st.next] } := by
  simp only [step]
  rw [if_pos hq, if_pos hd]

lemma step_new {orig : List Char} {st : St} {m : Match}
    (hq : threshold ≤ parseDec (group2 orig m))
    (hd : parseDec (group2 orig m) ∉ st.seen) :
    step orig st m =
      { text := st.text
        seen := parseDec (group2 orig m) :: st.seen
        next := if st.next ≤ parseDec (group2 orig m) then
                  parseDec (group2 orig m) + 1 else st.next
        reps := st.reps
        resolved := st.resolved ++ [parseDec (group2 orig m)] } := by
  simp only [step]
  rw [if_pos hq, if_neg hd]

/-! ### The invariant is established and preserved -/

lemma inv_init (cs : List Char) : Inv (initSt cs) := by
  simp [Inv, initSt]

lemma inv_step (orig : List Char) (st : St) (m : Match) (h : Inv st) :
    Inv (step orig st m) := by
  obtain ⟨h1, h2, h3, h4⟩ := h
  by_cases hq : threshold ≤ parseDec (group2 orig m)
  · by_cases hd : parseDec (group2 orig m) ∈ st.seen
    · rw [step_dup hq hd]
      unfold Inv
      dsimp only
      refine ⟨?_, ?_, ?_, ?_⟩
      · intro v hv
        exact Nat.lt_succ_of_lt (h1 v hv)
      · intro r hr
        rcases List.mem_append.1 hr with hr | hr
        · exact Nat.lt_succ_of_lt (h2 r hr)
        · simp at hr
          omega
      · rw [List.pairwise_append]
        refine ⟨h3, List.pairwise_singleton _ _, ?_⟩
        intro a ha b hb
        simp at hb
        subst hb
        exact h2 a ha
      · intro x hx
        rcases List.mem_append.1 hx with hx | hx
        · rcases h4 x hx with hx' | hx'
          · exact Or.inl hx'
          · exact Or.inr (List.mem_append.2 (Or.inl hx'))
        · simp at hx
          subst hx
          exact Or.inr (List.mem_append.2 (Or.inr (List.mem_singleton.2 rfl)))
    · rw [step_new hq hd]
      unfold Inv
      dsimp only
      refine ⟨?_, ?_, ?_, ?_⟩
      · intro v hv
        rcases List.mem_cons.1 hv with hv | hv
        · subst hv
          split <;> omega
        · have := h1 v hv
          split <;> omega
      · intro r hr
        have := h2 r hr
        split <;> omega
      · exact h3
      · intro x hx
        rcases List.mem_append.1 hx with hx | hx
        · rcases h4 x hx with hx' | hx'
          · exact Or.inl (List.mem_cons_of_mem _ hx')
          · exact Or.inr hx'
        · simp at hx
          subst hx
          exact Or.inl (List.mem_cons_self _ _)
  · rw [step_below (by omega)]
    exact ⟨h1, h2, h3, h4⟩

lemma inv_foldl (cs : List Char) :
    ∀ (l : List Match) (st : St), Inv st → Inv (l.foldl (step cs) st)
  | [], _, h => h
  | m :: l, st, h => inv_foldl cs l (step cs st m) (inv_step cs st m h)

lemma inv_runP (cs : List Char) (k : ℕ) : Inv (runP cs k) :=
  inv_foldl cs _ _ (inv_init cs)

lemma inv_run (cs : List Char) : Inv (run cs) :=
  inv_foldl cs _ _ (inv_init cs)

/-! ### Stepping the prefix run -/

lemma runP_zero (cs : List Char) : runP cs 0 = initSt cs := rfl

lemma runP_succ (cs : List Char) (k : ℕ) (h : k < (findMatches cs).length) :
    runP cs (k + 1) = step cs (runP cs k) ((findMatches cs).get ⟨k, h⟩) := by
  unfold runP
  rw [List.take_succ, List.foldl_append, List.getElem?_eq_getElem h]
  simp [List.get_eq_getElem]

lemma runP_stable (cs : List Char) (k : ℕ)
    (h : (findMatches cs).length ≤ k) : runP cs k = run cs := by
  unfold runP run
  rw [List.take_of_length_le h]

lemma run_eq_runP (cs : List Char) : run cs = runP cs (findMatches cs).length :=
  (runP_stable cs _ le_rfl).symm

/-! ### What ends up in the seen-set -/

lemma seen_foldl (cs : List Char) :
    ∀ (l : List Match) (st : St) (v : ℕ),
      (v ∈ (l.foldl (step cs) st).seen ↔
        v ∈ st.seen ∨ (threshold ≤ v ∧ v ∈ l.map (valueOf cs)))
  | [], st, v => by simp
  | m :: l, st, v => by
    have ih := seen_foldl cs l (step cs st m) v
    rw [List.foldl_cons, ih]
    by_cases hq : threshold ≤ parseDec (group2 cs m)
    · by_cases hd : parseDec (group2 cs m) ∈ st.seen
      · rw [step_dup hq hd]
        dsimp only
        simp only [List.map_cons, List.mem_cons, valueOf]
        constructor
        · rintro (h | ⟨h1, h2⟩)
          · exact Or.inl h
          · exact Or.inr ⟨h1, Or.inr h2⟩
        · rintro (h | ⟨h1, h2 | h2⟩)
          · exact Or.inl h
          · subst h2
            exact Or.inl hd
          · exact Or.inr ⟨h1, h2⟩
      · rw [step_new hq hd]
        dsimp only
        simp only [List.map_cons, List.mem_cons, valueOf]
        constructor
        · rintro ((h | h) | ⟨h1, h2⟩)
          · subst h
            exact Or.inr ⟨hq, Or.inl rfl⟩
          · exact Or.inl h
          · exact Or.inr ⟨h1, Or.inr h2⟩
        · rintro (h | ⟨h1, h2 | h2⟩)
          · exact Or.inl (Or.inr h)
          · subst h2
            exact Or.inl (Or.inl rfl)
          · exact Or.inr ⟨h1, h2⟩
    · rw [step_below (by omega)]
      simp only [List.map_cons, List.mem_cons, valueOf]
      constructor
      · rintro (h | ⟨h1, h2⟩)
        · exact Or.inl h
        · exact Or.inr ⟨h1, Or.inr h2⟩
      · rintro (h | ⟨h1, h2 | h2⟩)
        · exact Or.inl h
        · subst h2
          unfold valueOf at hq
          omega
        · exact Or.inr ⟨h1, h2⟩

lemma seen_run (cs : List Char) (v : ℕ) :
    v ∈ (run cs).seen ↔ threshold ≤ v ∧ v ∈ matchValues cs := by
  have h := seen_foldl cs (findMatches cs) (initSt cs) v
  unfold run matchValues
  rw [h]
  simp [initSt]

lemma mem_qualValues (cs : List Char) (v : ℕ) :
    v ∈ qualValues cs ↔ threshold ≤ v ∧ v ∈ matchValues cs := by
  unfold qualValues
  rw [List.mem_filter]
  simp only [decide_eq_true_eq]
  tauto

/-! ### Runs that never splice leave the text alone -/

lemma foldl_id_of_below (cs : List Char) :
    ∀ (l : List Match) (st : St),
      (∀ m ∈ l, parseDec (group2 cs m) < threshold) →
      l.foldl (step cs) st = st
  | [], _, _ => rfl
  | m :: l, st, h => by
    rw [List.foldl_cons, step_below (h m (List.mem_cons_self m l))]
    exact foldl_id_of_below cs l st (fun m' hm' => h m' (List.mem_cons_of_mem _ hm'))

lemma text_foldl_nodup (cs : List Char) :
    ∀ (l : List Match) (st : St),
      ((l.map (valueOf cs)).filter (fun v => threshold ≤ v)).Nodup →
      (∀ v ∈ st.seen, v ∉ (l.map (valueOf cs)).filter (fun v => threshold ≤ v)) →
      (l.foldl (step cs) st).text = st.text
  | [], _, _, _ => rfl
  | m :: l, st, hnd, hdis => by
    rw [List.foldl_cons]
    by_cases hq : threshold ≤ parseDec (group2 cs m)
    · have hfil : ((m :: l).map (valueOf cs)).filter (fun v => threshold ≤ v) =
          parseDec (group2 cs m) ::
            (l.map (valueOf cs)).filter (fun v => threshold ≤ v) := by
        simp [List.filter_cons, valueOf, hq]
      rw [hfil] at hnd hdis
      have hnotmem : parseDec (group2 cs m) ∉
          (l.map (valueOf cs)).filter (fun v => threshold ≤ v) :=
        (List.nodup_cons.1 hnd).1
      have hnd' := (List.nodup_cons.1 hnd).2
      have hd : parseDec (group2 cs m) ∉ st.seen := by
        intro hmem
        exact (hdis _ hmem) (List.mem_cons_self _ _)
      rw [step_new hq hd]
      have := text_foldl_nodup cs l
        { text := st.text
          seen := parseDec (group2 cs m) :: st.seen
          next := if st.next ≤ parseDec (group2 cs m) then
                    parseDec (group2 cs m) + 1 else st.next
          reps := st.reps
          resolved := st.resolved ++ [parseDec (group2 cs m)] }
        hnd' ?_
      · exact this
      · intro v hv
        dsimp only at hv
        rcases List.mem_cons.1 hv with hv | hv
        · subst hv
          exact hnotmem
        · intro hbad
          exact (hdis v hv) (List.mem_cons_of_mem _ hbad)
    · have hfil : ((m :: l).map (valueOf cs)).filter (fun v => threshold ≤ v) =
          (l.map (valueOf cs)).filter (fun v => threshold ≤ v) := by
        simp [List.filter_cons, valueOf]
        omega
      rw [hfil] at hnd hdis
      rw [step_below (by omega)]
      exact text_foldl_nodup cs l st hnd hdis

/-! ### Soundness of the matcher -/

lemma runLen_eq_length (p : Char → Bool) (cs : List Char) :
    runLen p cs = (cs.takeWhile p).length := rfl

lemma drop_runLen (p : Char → Bool) :
    ∀ cs : List Char, cs.drop (runLen p cs) = cs.dropWhile p
  | [] => rfl
  | c :: cs => by
    by_cases h : p c
    · simpa [runLen, List.takeWhile_cons, h, List.dropWhile_cons]
        using drop_runLen p cs
    · simp [runLen, List.takeWhile_cons, h, List.dropWhile_cons]

lemma peel_run (p : Char → Bool) (l : List Char) :
    ∃ w r, l = w ++ r ∧ (∀ x ∈ w, p x) ∧ w.length = runLen p l ∧
      l.drop (runLen p l) = r :=
  ⟨l.takeWhile p, l.dropWhile p, (List.takeWhile_append_dropWhile p l).symm,
    fun _ hx => List.mem_takeWhile_imp hx, rfl, drop_runLen p l⟩

lemma head_eq_cons {l : List Char} {c : Char} (h : l.head? = some c) :
    ∃ t, l = c :: t := by
  cases l with
  | nil => simp at h
  | cons x t =>
    simp only [List.head?_cons, Option.some.injEq] at h
    exact ⟨t, by rw [h]⟩

lemma tryMatchAt_sound {cs : List Char} {s2 e2 : ℕ}
    (h : tryMatchAt cs = some (s2, e2)) : ShapeAt cs 0 s2 e2 := by
  simp only [tryMatchAt] at h
  obtain ⟨ws, r1, Hcs, Hws, Hwslen, Hdrop1⟩ := peel_run isSpaceChar cs
  by_cases ha : runLen isSpaceChar cs = 0
  · rw [if_pos ha] at h
    exact absurd h (by simp)
  rw [if_neg ha, Hdrop1] at h
  obtain ⟨idt, r2, Hr1, Hidt, Hidtlen, Hdrop2⟩ := peel_run isWordChar r1
  by_cases hb : runLen isWordChar r1 = 0
  · rw [if_pos hb] at h
    exact absurd h (by simp)
  rw [if_neg hb] at h
  have hD2 : cs.drop (runLen isSpaceChar cs + runLen isWordChar r1) = r2 := by
    rw [← List.drop_drop, Hdrop1, Hdrop2]
  rw [hD2] at h
  obtain ⟨ws2, r3, Hr2, Hws2, Hws2len, Hdrop3⟩ := peel_run isSpaceChar r2
  have hD3 : cs.drop (runLen isSpaceChar cs + runLen isWordChar r1 +
      runLen isSpaceChar r2) = r3 := by
    rw [← List.drop_drop, hD2, Hdrop3]
  rw [hD3] at h
  by_cases hHE : r3.head? = some '='
  swap
  · rw [if_neg hHE] at h
    exact absurd h (by simp)
  rw [if_pos hHE] at h
  obtain ⟨rest, Hr3⟩ := head_eq_cons hHE
  rw [Hr3] at h
  simp only [List.tail_cons] at h
  obtain ⟨ws3, r4, Hrest, Hws3, Hws3len, Hdrop4⟩ := peel_run isSpaceChar rest
  rw [Hdrop4] at h
  obtain ⟨ds, r5, Hr4, Hds, Hdslen, Hdrop5⟩ := peel_run Char.isDigit r4
  by_cases he : runLen Char.isDigit r4 = 0
  · rw [if_pos he] at h
    exact absurd h (by simp)
  rw [if_neg he] at h
  have hD5 : rest.drop (runLen isSpaceChar rest + runLen Char.isDigit r4) = r5 := by
    rw [← List.drop_drop, Hdrop4, Hdrop5]
  rw [hD5] at h
  by_cases hHC : r5.head? = some ','
  swap
  · rw [if_neg hHC] at h
    exact absurd h (by simp)
  rw [if_pos hHC] at h
  obtain ⟨post, Hr5⟩ := head_eq_cons hHC
  simp only [Option.some.injEq, Prod.mk.injEq] at h
  obtain ⟨hs2, he2⟩ := h
  refine ⟨[], ws, idt, ws2, ws3, ds, post, ?_, rfl, ?_, Hws, ?_, Hidt, Hws2, Hws3,
    ?_, Hds, ?_, ?_⟩
  · rw [List.nil_append, Hcs, Hr1, Hr2, Hr3, Hrest, Hr4, Hr5]
    simp [List.append_assoc]
  · intro hnil
    rw [hnil] at Hwslen
    exact ha Hwslen.symm
  · intro hnil
    rw [hnil] at Hidtlen
    exact hb Hidtlen.symm
  · intro hnil
    rw [hnil] at Hdslen
    exact he Hdslen.symm
  · omega
  · omega

lemma shapeAt_prepend (pre0 : List Char) {cs : List Char} {p s2 e2 : ℕ}
    (h : ShapeAt cs p s2 e2) :
    ShapeAt (pre0 ++ cs) (pre0.length + p) (pre0.length + s2) (pre0.length + e2) := by
  obtain ⟨pre, ws, idt, ws2, ws3, ds, post, hcs, hp, h1, h2, h3, h4, h5, h6, h7, h8,
    h9, h10⟩ := h
  refine ⟨pre0 ++ pre, ws, idt, ws2, ws3, ds, post, ?_, ?_, h1, h2, h3, h4, h5, h6,
    h7, h8, ?_, ?_⟩
  · rw [hcs]
    simp [List.append_assoc]
  · simp [hp]
  · omega
  · omega

lemma shapeAt_lt_length {cs : List Char} {p s2 e2 : ℕ}
    (h : ShapeAt cs p s2 e2) : e2 < cs.length := by
  obtain ⟨pre, ws, idt, ws2, ws3, ds, post, hcs, hp, h1, h2, h3, h4, h5, h6, h7, h8,
    h9, h10⟩ := h
  rw [hcs]
  simp only [List.length_append, List.length_cons]
  omega

lemma finditerAux_sound :
    ∀ (fuel : ℕ) (cs : List Char) (off : ℕ) (m : Match),
      m ∈ finditerAux fuel cs off →
      ∃ p s2 e2, m.mstart = off + p ∧ m.s2 = off + s2 ∧ m.e2 = off + e2 ∧
        ShapeAt cs p s2 e2
  | 0, cs, off, m => by
    intro h
    exact absurd h (List.not_mem_nil m)
  | fuel + 1, cs, off, m => by
    intro h
    cases hT : tryMatchAt cs with
    | some pair =>
      obtain ⟨s2, e2⟩ := pair
      simp only [finditerAux, hT] at h
      rcases List.mem_cons.1 h with h | h
      · subst h
        exact ⟨0, s2, e2, by simp, rfl, rfl, tryMatchAt_sound hT⟩
      · obtain ⟨p', s2', e2', h1, h2, h3, hS⟩ := finditerAux_sound fuel _ _ m h
        have hlt : e2 < cs.length := shapeAt_lt_length (tryMatchAt_sound hT)
        have htk : (cs.take (e2 + 1)).length = e2 + 1 := by
          rw [List.length_take]
          omega
        have hpre := shapeAt_prepend (cs.take (e2 + 1)) hS
        rw [List.take_append_drop, htk] at hpre
        exact ⟨e2 + 1 + p', e2 + 1 + s2', e2 + 1 + e2',
          by omega, by omega, by omega, hpre⟩
    | none =>
      cases cs with
      | nil =>
        simp only [finditerAux, hT] at h
        exact absurd h (List.not_mem_nil m)
      | cons c rest =>
        simp only [finditerAux, hT] at h
        obtain ⟨p', s2', e2', h1, h2, h3, hS⟩ := finditerAux_sound fuel rest (off + 1) m h
        have hpre := shapeAt_prepend [c] hS
        rw [List.singleton_append] at hpre
        exact ⟨1 + p', 1 + s2', 1 + e2', by omega, by omega, by omega,
          by simpa using hpre⟩

lemma findMatches_sound {cs : List Char} {m : Match}
    (h : m ∈ findMatches cs) : ShapeAt cs m.mstart m.s2 m.e2 := by
  obtain ⟨p, s2, e2, h1, h2, h3, hS⟩ := finditerAux_sound cs.length cs 0 m h
  rw [h1, h2, h3]
  simpa using hS

lemma shapeAt_group2 {cs : List Char} {p s2 e2 : ℕ} (h : ShapeAt cs p s2 e2) :
    (cs.drop s2).take (e2 - s2) ≠ [] ∧
    (∀ c ∈ (cs.drop s2).take (e2 - s2), Char.isDigit c) ∧
    s2 < e2 ∧ e2 < cs.length := by
  have hlen := shapeAt_lt_length h
  obtain ⟨pre, ws, idt, ws2, ws3, ds, post, hcs, hp, h1, h2, h3, h4, h5, h6, h7, h8,
    h9, h10⟩ := h
  have hB : cs = (pre ++ ws ++ idt ++ ws2 ++ '=' :: ws3) ++ (ds ++ ',' :: post) := by
    rw [hcs]
    simp [List.append_assoc]
  have hBlen : (pre ++ ws ++ idt ++ ws2 ++ '=' :: ws3).length = s2 := by
    simp only [List.length_append, List.length_cons]
    omega
  have hdrop : cs.drop s2 = ds ++ ',' :: post := by
    rw [hB]
    exact List.drop_left' hBlen
  have htake : (cs.drop s2).take (e2 - s2) = ds := by
    rw [hdrop, show e2 - s2 = ds.length by omega]
    exact List.take_left ds _
  rw [htake]
  refine ⟨h7, h8, ?_, hlen⟩
  have : ds.length ≠ 0 := fun hz => h7 (List.eq_nil_of_length_eq_zero hz)
  omega

/-! ### Distinctness of the resolved values -/

lemma resolved_nodup_aux (cs : List Char) (hnf : NoFwdCollision cs) :
    ∀ k, (runP cs k).resolved.Nodup
  | 0 => by simp [runP_zero, initSt]
  | k + 1 => by
    have ih := resolved_nodup_aux cs hnf k
    by_cases hk : k < (findMatches cs).length
    · rw [runP_succ cs k hk]
      obtain ⟨h1, h2, h3, h4⟩ := inv_runP cs k
      by_cases hq : threshold ≤ valueOf cs ((findMatches cs).get ⟨k, hk⟩)
      · by_cases hd : valueOf cs ((findMatches cs).get ⟨k, hk⟩) ∈ (runP cs k).seen
        · rw [step_dup hq hd]
          dsimp only
          rw [List.nodup_append]
          refine ⟨ih, List.nodup_singleton _, ?_⟩
          intro x hx hy
          simp only [List.mem_singleton] at hy
          subst hy
          rcases h4 _ hx with hx' | hx'
          · exact absurd (h1 _ hx') (lt_irrefl _)
          · exact absurd (h2 _ hx') (lt_irrefl _)
        · rw [step_new hq hd]
          dsimp only
          rw [List.nodup_append]
          refine ⟨ih, List.nodup_singleton _, ?_⟩
          intro x hx hy
          simp only [List.mem_singleton] at hy
          subst hy
          rcases h4 _ hx with hx' | hx'
          · exact hd hx'
          · exact (hnf k hk hq hd) hx'
      · have hq' : parseDec (group2 cs ((findMatches cs).get ⟨k, hk⟩)) < threshold := by
          unfold valueOf at hq
          omega
        rw [step_below hq']
        exact ih
    · rw [runP_stable cs (k + 1) (by omega), ← runP_stable cs k (by omega)]
      exact ih

/-! ## The claims -/

/-- C1, counterexample.  The claim asserts that in the rewritten output no
two assignment statements with qualifying codes (≥ 2134) share a value.
On `exForward` the duplicate `B = 2134` is renumbered to 2135, which then
collides with the not-yet-seen `C = 2135` further down: the output's
qualifying values are `[2134, 2135, 2135]`, not pairwise distinct. -/
theorem c1_counterexample : ¬ (qualValues ((run exForward).text)).Nodup := by
  decide

/-- C1, amended.  Provided that no qualifying first occurrence has a value
that was already handed out as a replacement earlier in the pass (the
forward-collision gap the design admits), the values that the qualifying
matches end the pass with — the original code for a first occurrence, the
assigned replacement for a duplicate — are pairwise distinct. -/
theorem c1_resolved_nodup (cs : List Char) (h : NoFwdCollision cs) :
    (run cs).resolved.Nodup := by
  rw [run_eq_runP]
  exact resolved_nodup_aux cs h _

/-- C1, witness for the amended theorem at a concrete input. -/
theorem c1_resolved_nodup_witness :
    NoFwdCollision exTwoIndented ∧ (run exTwoIndented).resolved.Nodup :=
  ⟨by decide, c1_resolved_nodup exTwoIndented (by decide)⟩

/-- C2, counterexample.  The claim says leading whitespace is optional and
that an assignment at the very start of the text is matched; the pattern
`(\s+\w+\s*=\s*)(\d+),` requires at least one whitespace character, so
`"A = 2134,"` (assignment at offset 0, no preceding whitespace) yields no
match at all. -/
theorem c2_counterexample : findMatches "A = 2134,".toList = [] := by
  decide

/-- C2, amended.  Every substring treated as a match consists of one or
more whitespace characters (not optional), an identifier token, optional
whitespace, `'='`, optional whitespace, a decimal integer (capture group
2), and a literal comma; matches are found left to right and do not
overlap.  An assignment at the very start of the text with no preceding
whitespace is not matched. -/
theorem c2_match_shape (cs : List Char) (m : Match) (h : m ∈ findMatches cs) :
    ShapeAt cs m.mstart m.s2 m.e2 :=
  findMatches_sound h

/-- C2, witness: the first match of `exTwoIndented` and its decomposition. -/
theorem c2_match_shape_witness :
    (⟨0, 5, 9⟩ : Match) ∈ findMatches " A = 2134,".toList ∧
      ShapeAt " A = 2134,".toList 0 5 9 :=
  ⟨by decide, c2_match_shape " A = 2134,".toList ⟨0, 5, 9⟩ (by decide)⟩

set_option maxRecDepth 100000 in
/-- C3, counterexample.  The claim asserts every below-threshold
assignment appears byte-identical in the output.  On `exCorrupt` the
match ` x = 5,` (value 5 < 2134) is destroyed by a later splice whose
offsets are stale after a length-changing replacement: its bytes appear
nowhere in the output text. -/
theorem c3_counterexample :
    (⟨44, 49, 50⟩ : Match) ∈ findMatches exCorrupt ∧
      valueOf exCorrupt ⟨44, 49, 50⟩ < threshold ∧
      ¬ (matchedText exCorrupt ⟨44, 49, 50⟩ <:+: (run exCorrupt).text) := by
  refine ⟨by decide, by decide, ?_⟩
  decide

/-- C3, amended.  Processing a match whose value is below the threshold
is a complete no-op on the loop state: the text, the seen-set and the
counter are all left exactly as they were.  (The assignment's bytes are
therefore untouched by its own processing; they can still be corrupted by
a stale-offset splice of a neighbouring duplicate, as the counterexample
shows.) -/
theorem c3_below_noop (orig : List Char) (st : St) (m : Match)
    (h : valueOf orig m < threshold) : step orig st m = st :=
  step_below h

/-- C3, witness at a concrete below-threshold match. -/
theorem c3_below_noop_witness :
    valueOf " x = 5,".toList ⟨0, 5, 6⟩ < threshold ∧
      step " x = 5,".toList (initSt " x = 5,".toList) ⟨0, 5, 6⟩ =
        initSt " x = 5,".toList :=
  ⟨by decide, c3_below_noop _ _ _ (by decide)⟩

/-- C4, counterexample.  The claim's input has both lines starting at
column 0; the pattern requires at least one whitespace character before
the identifier, so the first line is never matched, `B = 2134` is then a
first occurrence, and the file is left unchanged — the claimed output
(`B` renumbered to 2135) is not produced. -/
theorem c4_counterexample :
    (run exTwo).text = exTwo ∧
      (run exTwo).text ≠ "A = 2134,\nB = 2135,\n".toList := by
  decide

/-- C4, amended.  With each line preceded by whitespace (so that both
assignments match), the example behaves as stated: ` A = 2134,` is kept
and the duplicate ` B = 2134,` is renumbered to 2135. -/
theorem c4_example_indented :
    (run exTwoIndented).text = " A = 2134,\n B = 2135,\n".toList := by
  decide

/-- C5.  Replacement values are handed out in strictly increasing order,
and at the moment a replacement is handed out (a qualifying duplicate is
met), the counter's value is neither in the seen-set nor among the
replacements assigned so far. -/
theorem c5_monotonic_replacement (cs : List Char) :
    (run cs).reps.Pairwise (· < ·) ∧
    ∀ k, ∀ h : k < (findMatches cs).length,
      threshold ≤ valueOf cs ((findMatches cs).get ⟨k, h⟩) →
      valueOf cs ((findMatches cs).get ⟨k, h⟩) ∈ (runP cs k).seen →
      (runP cs k).next ∉ (runP cs k).seen ∧ (runP cs k).next ∉ (runP cs k).reps := by
  refine ⟨(inv_run cs).2.2.1, ?_⟩
  intro k h _ _
  obtain ⟨h1, h2, _, _⟩ := inv_runP cs k
  constructor
  · intro hmem
    exact absurd (h1 _ hmem) (lt_irrefl _)
  · intro hmem
    exact absurd (h2 _ hmem) (lt_irrefl _)

/-- C5, witness: on `exTwoIndented` the second match (index 1) is a
qualifying duplicate, and the counter is fresh at that moment. -/
theorem c5_monotonic_replacement_witness :
    (run exTwoIndented).reps.Pairwise (· < ·) ∧
      ((runP exTwoIndented 1).next ∉ (runP exTwoIndented 1).seen ∧
        (runP exTwoIndented 1).next ∉ (runP exTwoIndented 1).reps) :=
  ⟨(c5_monotonic_replacement exTwoIndented).1,
    (c5_monotonic_replacement exTwoIndented).2 1 (by decide) (by decide) (by decide)⟩

/-- C6.  If the qualifying values of the input are already pairwise
distinct, the run never reaches the duplicate branch: the text is
returned unchanged, and running the operation again on its own output
yields the same text. -/
theorem c6_idempotent (cs : List Char) (h : (qualValues cs).Nodup) :
    (run cs).text = cs ∧ (run ((run cs).text)).text = (run cs).text := by
  have hdis : ∀ v ∈ (initSt cs).seen,
      v ∉ ((findMatches cs).map (valueOf cs)).filter (fun v => threshold ≤ v) := by
    intro v hv
    exact absurd hv (List.not_mem_nil v)
  have h1 : (run cs).text = cs :=
    text_foldl_nodup cs (findMatches cs) (initSt cs) h hdis
  exact ⟨h1, by rw [h1]; exact h1⟩

/-- C6, witness at a concrete already-unique input. -/
theorem c6_idempotent_witness :
    (qualValues exNodup).Nodup ∧
      ((run exNodup).text = exNodup ∧
        (run ((run exNodup).text)).text = (run exNodup).text) :=
  ⟨by decide, c6_idempotent exNodup (by decide)⟩

/-- C7.  If no match is a duplicate qualifying code (in particular if the
pattern produces no matches at all) the output text is byte-identical to
the input; and when there are zero qualifying matches the final counter
still equals the start code 2135. -/
theorem c7_no_match_noop (cs : List Char) :
    ((qualValues cs).Nodup → (run cs).text = cs) ∧
      (qualValues cs = [] → (run cs).text = cs ∧ (run cs).next = startCode) := by
  constructor
  · intro h
    have hdis : ∀ v ∈ (initSt cs).seen,
        v ∉ ((findMatches cs).map (valueOf cs)).filter (fun v => threshold ≤ v) := by
      intro v hv
      exact absurd hv (List.not_mem_nil v)
    exact text_foldl_nodup cs (findMatches cs) (initSt cs) h hdis
  · intro h
    have hall : ∀ m ∈ findMatches cs, parseDec (group2 cs m) < threshold := by
      intro m hm
      by_contra hge
      push_neg at hge
      have hmem : valueOf cs m ∈ qualValues cs := by
        rw [mem_qualValues]
        exact ⟨hge, List.mem_map_of_mem _ hm⟩
      rw [h] at hmem
      exact absurd hmem (List.not_mem_nil _)
    have hid := foldl_id_of_below cs (findMatches cs) (initSt cs) hall
    unfold run
    rw [hid]
    exact ⟨rfl, rfl⟩

/-- C7, witness at a concrete matchless input. -/
theorem c7_no_match_noop_witness :
    qualValues exNoMatch = [] ∧
      ((run exNoMatch).text = exNoMatch ∧ (run exNoMatch).next = startCode) :=
  ⟨by decide, (c7_no_match_noop exNoMatch).2 (by decide)⟩

/-- C8.  For every input and every match, capture group 2 is a non-empty
string of decimal digits (so `int(match.group(2))` succeeds), the group
span is non-degenerate, and it lies inside the text, so the splice
offsets always refer to positions of the original text; the whole
transformation is a total function (Python slices clamp, as `take`/`drop`
do, so later length changes cannot make a slice undefined). -/
theorem c8_group2_safe (cs : List Char) (m : Match) (h : m ∈ findMatches cs) :
    group2 cs m ≠ [] ∧ (∀ c ∈ group2 cs m, Char.isDigit c) ∧
      m.s2 < m.e2 ∧ m.e2 < cs.length :=
  shapeAt_group2 (findMatches_sound h)

/-- C8, witness on the second match of `exTwoIndented`. -/
theorem c8_group2_safe_witness :
    (⟨10, 16, 20⟩ : Match) ∈ findMatches exTwoIndented ∧
      (group2 exTwoIndented ⟨10, 16, 20⟩ ≠ [] ∧
        (∀ c ∈ group2 exTwoIndented ⟨10, 16, 20⟩, Char.isDigit c) ∧
        (⟨10, 16, 20⟩ : Match).s2 < (⟨10, 16, 20⟩ : Match).e2 ∧
        (⟨10, 16, 20⟩ : Match).e2 < exTwoIndented.length) :=
  ⟨by decide, c8_group2_safe _ _ (by decide)⟩

/-- C9.  The operation is deterministic: it is a pure function of the
input text, so byte-identical inputs produce identical output texts and
identical final counters. -/
theorem c9_deterministic (cs cs' : List Char) (h : cs = cs') :
    (run cs).text = (run cs').text ∧ (run cs).next = (run cs').next := by
  subst h
  exact ⟨rfl, rfl⟩

/-- C9, witness. -/
theorem c9_deterministic_witness :
    (run exTwo).text = (run exTwo).text ∧ (run exTwo).next = (run exTwo).next :=
  c9_deterministic exTwo exTwo rfl

/-- C10.  At every iteration the counter strictly exceeds every code in
the seen-set and every replacement assigned so far; consequently the
final printed counter exceeds every qualifying value of the original text
and every replacement written. -/
theorem c10_counter_dominates (cs : List Char) :
    (∀ k, (∀ v ∈ (runP cs k).seen, v < (runP cs k).next) ∧
        (∀ r ∈ (runP cs k).reps, r < (runP cs k).next)) ∧
      (∀ v ∈ qualValues cs, v < (run cs).next) ∧
      (∀ r ∈ (run cs).reps, r < (run cs).next) := by
  refine ⟨?_, ?_, (inv_run cs).2.1⟩
  · intro k
    obtain ⟨h1, h2, _, _⟩ := inv_runP cs k
    exact ⟨h1, h2⟩
  · intro v hv
    have hm := (mem_qualValues cs v).1 hv
    exact (inv_run cs).1 v ((seen_run cs v).2 hm)

/-- C10, witness at concrete iteration 2 of `exForward`. -/
theorem c10_counter_dominates_witness :
    ((2134 : ℕ) ∈ (runP exForward 2).seen ∧ 2134 < (runP exForward 2).next) ∧
      ((2134 : ℕ) ∈ qualValues exForward ∧ 2134 < (run exForward).next) :=
  ⟨⟨by decide, ((c10_counter_dominates exForward).1 2).1 2134 (by decide)⟩,
    ⟨by decide, (c10_counter_dominates exForward).2.1 2134 (by decide)⟩⟩

end FixErrorCodes
